import Mathlib

/-!
Verification of `src/evaluation/fold_eval_tts.py` (batch-inference driver).

The development shallowly embeds the two core components of the script:

* the batch packer `create_batched_sequence_datasest` (lines 65-89), which
  greedily groups `(header, sequence)` pairs into batches bounded by a token
  budget, and
* the resilient inference loop of `run` (lines 205-260), which drives batches
  through an opaque `model.infer` call, recovers from CUDA out-of-memory
  RuntimeErrors, accumulates per-sequence results, computes average
  confidences, and re-annotates the parsed FASTA records.

Pure Python functions become Lean functions; the generator becomes the list of
its yields; the stateful inference loop becomes explicit state passing over a
`RunState`, with the opaque `model.infer` call represented by an oracle
function and Python exceptions represented by an explicit error type.
-/

namespace FoldEvalTTS

/-- A `(header, sequence)` pair as produced by `read_fasta`. -/
abbrev SeqPair := String × String

/-- Worker for the batch packer: carries the mutable loop state
`batch_headers`, `batch_sequences`, `num_tokens` of
`create_batched_sequence_datasest` (fold_eval_tts.py lines 69-89) through the
`for header, seq in sequences` loop.  Each `yield` becomes a list element. -/
def packGo : List SeqPair → List String → List String → Int → Int →
    List (List String × List String)
  | [], batch_headers, batch_sequences, _, _ => [(batch_headers, batch_sequences)]
  | (header, seq) :: rest, batch_headers, batch_sequences, num_tokens, max_tokens =>
    if (seq.length : Int) + num_tokens ≤ max_tokens then
      packGo rest (batch_headers ++ [header]) (batch_sequences ++ [seq])
        (num_tokens + (seq.length : Int)) max_tokens
    else
      (batch_headers, batch_sequences) ::
        packGo rest [header] [seq] ((seq.length : Int)) max_tokens

/-- Embedding of `create_batched_sequence_datasest` (lines 65-89): the list of
batches yielded by the generator, each batch a `(batch_headers,
batch_sequences)` pair.  The trailing `yield` on line 89 is the final list
element produced by `packGo` on the empty list. -/
def create_batched_sequence_datasest (sequences : List SeqPair)
    (max_tokens_per_batch : Int := 1024) : List (List String × List String) :=
  packGo sequences [] [] 0 max_tokens_per_batch

/-- Values that can sit in a Python exception's `args` tuple, as far as the
handler on lines 213-226 can distinguish them: a string, or anything else
(an object without a `startswith` method). -/
inductive PyVal where
  | str (s : String)
  | nonStr
deriving DecidableEq

/-- Python exceptions relevant to the inference loop: `RuntimeError` with its
argument tuple (the only class caught on line 213), the `IndexError` raised by
`e.args[0]` on an empty tuple, the `AttributeError` raised by `.startswith` on
a non-string first argument, and any other exception class escaping
`model.infer` (uncaught by the `except RuntimeError` clause). -/
inductive PyExc where
  | runtimeError (args : List PyVal)
  | indexError
  | attributeError
  | otherExc (name : String)
deriving DecidableEq

/-- Outcome of the `except RuntimeError` block: either the `continue` on line
225 (skip the batch) or an exception leaving the block (the bare `raise` on
line 226, or a secondary error raised while evaluating the guard itself). -/
inductive HandlerOutcome where
  | skipBatch
  | raised (e : PyExc)
deriving DecidableEq

/-- The message checked on line 214. -/
def oomMsg : String := "CUDA out of memory"

/-- Model of Python `s.startswith(pre)`: prefix test on the character data. -/
def pyStartsWith (s pre : String) : Bool :=
  pre.data.isPrefixOf s.data

/-- Embedding of the `except RuntimeError as e` body (lines 213-226):
`e.args[0]` raises `IndexError` on an empty argument tuple; `.startswith` on a
non-string first argument raises `AttributeError`; a string first argument is
tested against the out-of-memory message, leading either to `continue`
(line 225) or to the bare `raise` of the original exception (line 226). -/
def handleRuntimeError (args : List PyVal) : HandlerOutcome :=
  match args with
  | [] => .raised .indexError
  | .nonStr :: _ => .raised .attributeError
  | .str s :: _ =>
    if pyStartsWith s oomMsg then .skipBatch
    else .raised (.runtimeError args)

/-- Result of one `model.infer(sequences, ...)` call (line 212): on success,
one `(pdb_string, mean_plddt, ptm)` triple per sequence (the script's
`output_to_pdb`, `output["mean_plddt"]`, `output["ptm"]` views of the model
output); otherwise the raised exception. -/
inductive InferResult where
  | ok (outputs : List (String × ℚ × ℚ))
  | exc (e : PyExc)

/-- State threaded through the inference loop (lines 205-208): the structure
files written so far (filename to contents, last write wins), the two
aggregate dictionaries `pLDDT_dict` and `pTM_dict`, and `num_completed`. -/
structure RunState where
  files : List (String × String)
  pLDDT_dict : List (String × ℚ)
  pTM_dict : List (String × ℚ)
  num_completed : Nat
deriving DecidableEq

/-- The loop state before the first batch (lines 205-208). -/
def initialState : RunState := ⟨[], [], [], 0⟩

/-- Decidable equality for `Except`, so concrete loop outcomes can be checked
by evaluation. -/
def exceptDecEq {ε α : Type} [DecidableEq ε] [DecidableEq α] :
    DecidableEq (Except ε α)
  | .ok x, .ok y =>
    if h : x = y then .isTrue (by rw [h])
    else .isFalse (by intro hc; cases hc; exact h rfl)
  | .ok _, .error _ => .isFalse (by intro hc; cases hc)
  | .error _, .ok _ => .isFalse (by intro hc; cases hc)
  | .error x, .error y =>
    if h : x = y then .isTrue (by rw [h])
    else .isFalse (by intro hc; cases hc; exact h rfl)

instance {ε α : Type} [DecidableEq ε] [DecidableEq α] :
    DecidableEq (Except ε α) :=
  exceptDecEq

/-- Python `d[k] = v` on a dict modelled as an association list: update the
existing entry in place, else append a new entry at the end (Python dicts
preserve insertion order). -/
def dictInsert {α : Type} : List (String × α) → String → α → List (String × α)
  | [], k, v => [(k, v)]
  | kv :: rest, k, v =>
    if kv.1 = k then (k, v) :: rest else kv :: dictInsert rest k v

/-- Python `d[k]` as an optional lookup. -/
def dictLookup {α : Type} : List (String × α) → String → Option α
  | [], _ => none
  | kv :: rest, k => if kv.1 = k then some kv.2 else dictLookup rest k

/-- The key list of a dict, in insertion order. -/
def dictKeys {α : Type} (d : List (String × α)) : List String :=
  d.map fun kv => kv.1

/-- Model of `header.split()[0]` (line 237): first whitespace-separated token
of the header (Python raises `IndexError` on an all-whitespace header, which
never occurs for headers carrying an id; the model returns `""` there). -/
def seqIdOf (header : String) : String :=
  String.mk ((header.data.dropWhile Char.isWhitespace).takeWhile
    fun c => !c.isWhitespace)

/-- One iteration of the per-sequence `for` loop on lines 234-247: write the
structure file `<seq_id>.pdb`, bump `num_completed`, and record both scores in
the aggregate dicts.  The item is one element of the zip on lines 234-236:
`(header, (seq, (pdb_string, (mean_plddt, ptm))))`. -/
def commitOne (st : RunState) (item : String × String × String × ℚ × ℚ) :
    RunState :=
  { files := dictInsert st.files (seqIdOf item.1 ++ ".pdb") item.2.2.1
    pLDDT_dict := dictInsert st.pLDDT_dict (seqIdOf item.1) item.2.2.2.1
    pTM_dict := dictInsert st.pTM_dict (seqIdOf item.1) item.2.2.2.2
    num_completed := st.num_completed + 1 }

/-- The whole per-sequence loop over the zipped batch output. -/
def commitOutputs (st : RunState)
    (items : List (String × String × String × ℚ × ℚ)) : RunState :=
  items.foldl commitOne st

/-- One iteration of `for headers, sequences in batched_sequences`
(lines 209-247): invoke inference, classify a `RuntimeError` through the
handler (`continue` keeps the state untouched), let any other exception
propagate, and on success commit every sequence of the zipped batch. -/
def processBatch (st : RunState) (headers sequences : List String)
    (res : InferResult) : Except PyExc RunState :=
  match res with
  | .ok outputs => .ok (commitOutputs st (headers.zip (sequences.zip outputs)))
  | .exc (.runtimeError args) =>
    match handleRuntimeError args with
    | .skipBatch => .ok st
    | .raised e => .error e
  | .exc e => .error e

/-- The inference loop over all batches, with `model.infer` represented by an
oracle from the batch's sequence list to its result.  A propagating exception
aborts the loop. -/
def runLoop (oracle : List String → InferResult) :
    RunState → List (List String × List String) → Except PyExc RunState
  | st, [] => .ok st
  | st, (headers, sequences) :: rest =>
    match processBatch st headers sequences (oracle sequences) with
    | .ok st2 => runLoop oracle st2 rest
    | .error e => .error e

/-- Python `/` on a number and an integer count: raises `ZeroDivisionError`
when the count is zero. -/
def pyDiv (x : ℚ) (n : Nat) : Except String ℚ :=
  if n = 0 then .error "ZeroDivisionError: division by zero"
  else .ok (x / (n : ℚ))

/-- Embedding of lines 248-249: `avg_pLDDT = sum(pLDDT_dict.values()) /
num_completed` and the analogous `avg_pTM`, in evaluation order. -/
def runAverages (st : RunState) : Except String (ℚ × ℚ) :=
  match pyDiv (st.pLDDT_dict.map fun kv => kv.2).sum st.num_completed with
  | .error e => .error e
  | .ok avg_pLDDT =>
    match pyDiv (st.pTM_dict.map fun kv => kv.2).sum st.num_completed with
    | .error e => .error e
    | .ok avg_pTM => .ok (avg_pLDDT, avg_pTM)

/-- Floor of a rational, computed from its reduced numerator and denominator
by floored integer division. -/
def ratFloor (q : ℚ) : Int :=
  Int.fdiv q.num q.den

/-- Round a rational to the nearest integer, ties to even, as Python's float
formatting does. -/
def roundHalfEven (q : ℚ) : Int :=
  let f := ratFloor q
  let r := q - (f : ℚ)
  if r < (1 : ℚ) / 2 then f
  else if (1 : ℚ) / 2 < r then f + 1
  else if f % 2 = 0 then f else f + 1

/-- Model of the Python f-string `f"{x:0.<prec>f}"`: fixed-point decimal
rendering with `prec` fractional digits. -/
def fmtFixed (prec : Nat) (q : ℚ) : String :=
  let n := roundHalfEven (q * ((10 : ℚ) ^ prec))
  let m := n.natAbs
  let ip := m / 10 ^ prec
  let fp := m % 10 ^ prec
  let fpStr := toString fp
  let fpPad := String.mk (List.replicate (prec - fpStr.length) '0') ++ fpStr
  let sign := if n < 0 then "-" else ""
  if prec = 0 then sign ++ toString ip
  else sign ++ toString ip ++ "." ++ fpPad

/-- A record of `parse_fasta` (lines 135-162): id, sequence, and the header's
key/value annotation map. -/
structure FastaRecord where
  id : String
  seq : String
  annots : List (String × String)
deriving DecidableEq

/-- One iteration of the annotation loop on lines 254-258: records whose id is
a key of `pLDDT_dict` get `pLDDT` (1 decimal place) and `pTM` (3 decimal
places) entries added to their annotation map; all other records are left
untouched.  (`pTM_dict[seq_id]` is looked up with a default; in the script the
two dicts always carry the same keys, so the default is never used.) -/
def annotateOne (pl pt : List (String × ℚ)) (r : FastaRecord) : FastaRecord :=
  if r.id ∈ dictKeys pl then
    let withPl := dictInsert r.annots "pLDDT" (fmtFixed 1 ((dictLookup pl r.id).getD 0))
    let withPt := dictInsert withPl "pTM" (fmtFixed 3 ((dictLookup pt r.id).getD 0))
    { r with annots := withPt }
  else r

/-- The whole annotation pass over the re-parsed FASTA records
(lines 253-258). -/
def annotateRecords (records : List FastaRecord) (pl pt : List (String × ℚ)) :
    List FastaRecord :=
  records.map (annotateOne pl pt)

/-- The items of a single batch that the per-sequence loop commits: the zipped
output on success, nothing when the batch is skipped or aborts the loop. -/
def batchItems (oracle : List String → InferResult)
    (b : List String × List String) : List (String × String × String × ℚ × ℚ) :=
  match oracle b.2 with
  | .ok outputs => b.1.zip (b.2.zip outputs)
  | .exc _ => []

/-- All items committed across a run's batches, in order. -/
def completedItems (oracle : List String → InferResult)
    (batches : List (List String × List String)) :
    List (String × String × String × ℚ × ℚ) :=
  (batches.map (batchItems oracle)).flatten

/-- Folding Python dict insertion over a list of key/value events. -/
def dictFold {α : Type} (d : List (String × α)) (evs : List (String × α)) :
    List (String × α) :=
  evs.foldl (fun d2 kv => dictInsert d2 kv.1 kv.2) d

/-- Key alignment invariant of the loop state: the written filenames are
exactly the `pLDDT_dict` keys suffixed with ".pdb", and the two aggregate
dicts carry the same keys in the same order. -/
def Aligned (st : RunState) : Prop :=
  dictKeys st.files = st.pLDDT_dict.map (fun kv => kv.1 ++ ".pdb")
  ∧ dictKeys st.pLDDT_dict = dictKeys st.pTM_dict

/-- A 100-residue sequence for the spec's worked batching example. -/
def exSeq100 : String := String.mk (List.replicate 100 'A')

/-- A 200-residue sequence for the spec's worked batching example. -/
def exSeq200 : String := String.mk (List.replicate 200 'B')

/-- A 300-residue sequence for the spec's worked batching example. -/
def exSeq300 : String := String.mk (List.replicate 300 'C')

/-- A 50-residue sequence for the spec's worked batching example. -/
def exSeq50 : String := String.mk (List.replicate 50 'D')

/-- The spec's example input: sequence lengths [100, 200, 300, 50]. -/
def exInput : List SeqPair :=
  [("h1", exSeq100), ("h2", exSeq200), ("h3", exSeq300), ("h4", exSeq50)]

/-- An oracle whose inference always fails with a CUDA out-of-memory
`RuntimeError`, as the accelerator does on an oversized batch. -/
def oomOracle : List String → InferResult := fun _ =>
  .exc (.runtimeError [.str "CUDA out of memory. Tried to allocate 20.00 GiB"])

/-- An oracle whose inference fails with a `RuntimeError` carrying an empty
argument tuple. -/
def emptyArgsOracle : List String → InferResult := fun _ =>
  .exc (.runtimeError [])

/-- Oracle for the duplicate-id scenario: two different singleton batches both
complete, each with score 0. -/
def dupIdOracle : List String → InferResult := fun ss =>
  if ss = ["AA"] then .ok [("pdbA", 0, 0)]
  else if ss = ["AAAA"] then .ok [("pdbB", 0, 0)]
  else .exc (.otherExc "ValueError")

/-- Batches for the duplicate-id scenario: both headers carry the same id. -/
def dupIdBatches : List (List String × List String) :=
  [(["a"], ["AA"]), (["a"], ["AAAA"])]

/-- Final loop state of the duplicate-id scenario: one dict entry, two
completions. -/
def dupIdState : RunState := ⟨[("a.pdb", "pdbB")], [("a", 0)], [("a", 0)], 2⟩

/-- Oracle for the distinct-id scenario: each singleton batch completes with
the spec's example confidences 80 and 90. -/
def meanOracle : List String → InferResult := fun ss =>
  if ss = ["AC"] then .ok [("pdbA", 80, 1)]
  else if ss = ["ACAC"] then .ok [("pdbB", 90, 2)]
  else .exc (.otherExc "ValueError")

/-- Batches for the distinct-id scenario. -/
def meanBatches : List (List String × List String) :=
  [(["a"], ["AC"]), (["b"], ["ACAC"])]

/-- Final loop state of the distinct-id scenario. -/
def meanState : RunState :=
  ⟨[("a.pdb", "pdbA"), ("b.pdb", "pdbB")], [("a", 80), ("b", 90)],
    [("a", 1), ("b", 2)], 2⟩

/-- Records of the FASTA file for the annotation scenario: one that completed
("a") and one that did not ("b"). -/
def annRecords : List FastaRecord :=
  [⟨"a", "AC", []⟩, ⟨"b", "CC", [("x", "y")]⟩]

/-- Oracle for the annotation scenario: the single batch completes. -/
def annOracle : List String → InferResult := fun ss =>
  if ss = ["AC"] then .ok [("pdbA", 80, 1)] else .exc (.otherExc "ValueError")

/-- Batches for the annotation scenario. -/
def annBatches : List (List String × List String) := [(["a"], ["AC"])]

/-- Final loop state of the annotation scenario. -/
def annState : RunState := ⟨[("a.pdb", "pdbA")], [("a", 80)], [("a", 1)], 1⟩

theorem packGo_ne_nil (pairs : List SeqPair) (bh bs : List String) (nt B : Int) :
    packGo pairs bh bs nt B ≠ [] := by
  induction pairs generalizing bh bs nt with
  | nil => simp [packGo]
  | cons p rest ih =>
    obtain ⟨header, seq⟩ := p
    simp only [packGo]
    split
    · exact ih _ _ _
    · simp

theorem packGo_mem_snd_ne_nil (pairs : List SeqPair) :
    ∀ (bh bs : List String) (nt B : Int), bs ≠ [] →
      ∀ b ∈ packGo pairs bh bs nt B, b.2 ≠ [] := by
  induction pairs with
  | nil =>
    intro bh bs nt B hbs b hb
    simp only [packGo, List.mem_singleton] at hb
    rw [hb]
    exact hbs
  | cons p rest ih =>
    intro bh bs nt B hbs b hb
    obtain ⟨header, seq⟩ := p
    simp only [packGo] at hb
    by_cases hc : (seq.length : Int) + nt ≤ B
    · rw [if_pos hc] at hb
      exact ih _ _ _ _ (by simp) b hb
    · rw [if_neg hc] at hb
      rcases List.mem_cons.mp hb with h | h
      · rw [h]
        exact hbs
      · exact ih _ _ _ _ (by simp) b h

theorem packGo_join_fst (pairs : List SeqPair) :
    ∀ (bh bs : List String) (nt B : Int),
      ((packGo pairs bh bs nt B).map fun b => b.1).flatten
        = bh ++ pairs.map fun p => p.1 := by
  induction pairs with
  | nil => intro bh bs nt B; simp [packGo]
  | cons p rest ih =>
    intro bh bs nt B
    obtain ⟨header, seq⟩ := p
    simp only [packGo]
    split
    · rw [ih]
      simp
    · simp only [List.map_cons, List.flatten_cons]
      rw [ih]
      simp

theorem packGo_join_snd (pairs : List SeqPair) :
    ∀ (bh bs : List String) (nt B : Int),
      ((packGo pairs bh bs nt B).map fun b => b.2).flatten
        = bs ++ pairs.map fun p => p.2 := by
  induction pairs with
  | nil => intro bh bs nt B; simp [packGo]
  | cons p rest ih =>
    intro bh bs nt B
    obtain ⟨header, seq⟩ := p
    simp only [packGo]
    split
    · rw [ih]
      simp
    · simp only [List.map_cons, List.flatten_cons]
      rw [ih]
      simp

theorem packGo_join_zip (pairs : List SeqPair) :
    ∀ (bh bs : List String) (nt B : Int), bh.length = bs.length →
      ((packGo pairs bh bs nt B).map fun b => b.1.zip b.2).flatten
        = bh.zip bs ++ pairs := by
  induction pairs with
  | nil => intro bh bs nt B h; simp [packGo]
  | cons p rest ih =>
    intro bh bs nt B h
    obtain ⟨header, seq⟩ := p
    simp only [packGo]
    split
    · rw [ih _ _ _ _ (by simp [h]), List.zip_append h]
      simp
    · simp only [List.map_cons, List.flatten_cons]
      rw [ih [header] [seq] _ _ rfl]
      simp

theorem accumulator_batch_disj {bs : List String} {B : Int} (hB : 0 ≤ B)
    (hacc : bs.length ≤ 1 ∨ (bs.map fun s => (s.length : Int)).sum ≤ B) :
    (bs.map fun s => (s.length : Int)).sum ≤ B ∨ bs.length = 1 := by
  rcases hacc with hlen | hle
  · cases bs with
    | nil => left; simpa using hB
    | cons x xs =>
      cases xs with
      | nil => right; rfl
      | cons y ys =>
        exfalso
        simp only [List.length_cons] at hlen
        omega
  · left
    exact hle

theorem packGo_budget (pairs : List SeqPair) :
    ∀ (bh bs : List String) (nt B : Int), 0 ≤ B →
      nt = (bs.map fun s => (s.length : Int)).sum →
      (bs.length ≤ 1 ∨ nt ≤ B) →
      ∀ b ∈ packGo pairs bh bs nt B,
        (b.2.map fun s => (s.length : Int)).sum ≤ B ∨ b.2.length = 1 := by
  induction pairs with
  | nil =>
    intro bh bs nt B hB hnt hacc b hb
    simp only [packGo, List.mem_singleton] at hb
    rw [hb]
    rw [hnt] at hacc
    exact accumulator_batch_disj hB hacc
  | cons p rest ih =>
    intro bh bs nt B hB hnt hacc b hb
    obtain ⟨header, seq⟩ := p
    simp only [packGo] at hb
    by_cases hc : (seq.length : Int) + nt ≤ B
    · rw [if_pos hc] at hb
      refine ih _ _ _ _ hB ?_ (Or.inr (by omega)) b hb
      simp [hnt, List.sum_append]
    · rw [if_neg hc] at hb
      rcases List.mem_cons.mp hb with h | h
      · rw [h]
        rw [hnt] at hacc
        exact accumulator_batch_disj hB hacc
      · refine ih _ _ _ _ hB (by simp) (Or.inl (by simp)) b h

theorem packGo_nonpos (pairs : List SeqPair) :
    ∀ (bh bs : List String) (nt B : Int), B ≤ 0 → 0 ≤ nt →
      (∀ p ∈ pairs, 0 < p.2.length) →
      packGo pairs bh bs nt B
        = (bh, bs) :: pairs.map fun p => ([p.1], [p.2]) := by
  induction pairs with
  | nil => intro bh bs nt B _ _ _; simp [packGo]
  | cons p rest ih =>
    intro bh bs nt B hB hnt hpos
    obtain ⟨header, seq⟩ := p
    have hlen : 0 < seq.length := hpos (header, seq) (List.mem_cons_self _ _)
    have hc : ¬ ((seq.length : Int) + nt ≤ B) := by omega
    simp only [packGo]
    rw [if_neg hc]
    rw [ih [header] [seq] _ B hB (by omega)
      (fun q hq => hpos q (List.mem_cons_of_mem _ hq))]
    simp

set_option maxRecDepth 10000 in
/-- C1: counterexample.  On the spec's example input (lengths [100, 200, 300,
50], budget 350) the packer does NOT emit the claimed batches
[100,200],[300],[50]: the yielded length profile is [[100,200],[300,50]],
because after the batch [300] is opened, 50 still fits (300 + 50 = 350 ≤ 350)
and joins it. -/
theorem c1_counterexample :
    ((create_batched_sequence_datasest exInput 350).map
        fun b => b.2.map String.length) = [[100, 200], [300, 50]]
    ∧ ((create_batched_sequence_datasest exInput 350).map
        fun b => b.2.map String.length) ≠ [[100, 200], [300], [50]] := by
  constructor
  · decide
  · decide

set_option maxRecDepth 10000 in
/-- C1 (amended): for the input with sequence lengths [100, 200, 300, 50] and
budget 350, the packer emits exactly the batches [100,200] and [300,50]: the
current batch is closed the moment the next pair would exceed the budget, the
new batch starts with that pair, and subsequent pairs may still join it. -/
theorem c1_amended_batches :
    create_batched_sequence_datasest exInput 350
      = [(["h1", "h2"], [exSeq100, exSeq200]), (["h3", "h4"], [exSeq300, exSeq50])] := by
  decide

/-- C3: counterexample.  On the non-empty input [("a", "AAAA")] with budget 3
the packer emits an EMPTY first batch (the still-empty accumulator is yielded
when the very first sequence already exceeds the budget), refuting "for every
non-empty input list every emitted batch contains at least one pair". -/
theorem c3_counterexample :
    create_batched_sequence_datasest [("a", "AAAA")] 3 = [([], []), (["a"], ["AAAA"])]
    ∧ ¬ (∀ b ∈ create_batched_sequence_datasest [("a", "AAAA")] 3, b.2 ≠ []) := by
  constructor
  · decide
  · decide

/-- C3 (amended): the packer always emits at least one batch; on empty input
it emits exactly one batch, which is empty; on non-empty input every emitted
batch after the first is non-empty, and the first batch is empty exactly when
the first sequence's length exceeds the budget. -/
theorem c3_amended_emission (pairs : List SeqPair) (B : Int) :
    create_batched_sequence_datasest pairs B ≠ []
    ∧ (pairs = [] → create_batched_sequence_datasest pairs B = [([], [])])
    ∧ (∀ header seq rest, pairs = (header, seq) :: rest →
        (∀ b ∈ (create_batched_sequence_datasest pairs B).tail, b.2 ≠ [])
        ∧ ((create_batched_sequence_datasest pairs B).head? = some ([], [])
            ↔ B < (seq.length : Int))) := by
  refine ⟨packGo_ne_nil pairs [] [] 0 B, ?_, ?_⟩
  · intro h
    rw [h]
    rfl
  · intro header seq rest hp
    subst hp
    simp only [create_batched_sequence_datasest, packGo, List.nil_append]
    by_cases hc : (seq.length : Int) + 0 ≤ B
    · rw [if_pos hc]
      constructor
      · intro b hb
        exact packGo_mem_snd_ne_nil rest [header] [seq] _ B (by simp) b
          (List.mem_of_mem_tail hb)
      · constructor
        · intro hhead
          exfalso
          cases hl : packGo rest [header] [seq] (0 + (seq.length : Int)) B with
          | nil => exact packGo_ne_nil rest [header] [seq] _ B hl
          | cons x xs =>
            rw [hl] at hhead
            simp only [List.head?_cons, Option.some_inj] at hhead
            have hmem : x ∈ packGo rest [header] [seq] (0 + (seq.length : Int)) B := by
              rw [hl]
              exact List.mem_cons_self _ _
            have := packGo_mem_snd_ne_nil rest [header] [seq] _ B (by simp) x hmem
            rw [hhead] at this
            simp at this
        · intro hlt
          exfalso
          omega
    · rw [if_neg hc]
      constructor
      · intro b hb
        simp only [List.tail_cons] at hb
        exact packGo_mem_snd_ne_nil rest [header] [seq] _ B (by simp) b hb
      · simp only [List.head?_cons, Option.some_inj]
        constructor
        · intro _
          omega
        · intro _
          trivial

/-- C3 (amended), witness: on the concrete non-empty input [("a", "AAAA")]
with budget 3, the first emitted batch is empty because 4 > 3. -/
theorem c3_amended_emission_witness :
    (create_batched_sequence_datasest [("a", "AAAA")] 3).head? = some ([], []) :=
  (((c3_amended_emission [("a", "AAAA")] 3).2.2 "a" "AAAA" [] rfl).2).mpr (by decide)

/-- C4: counterexample.  Called with token budget 0 the packer raises nothing
(its body contains no validation and no raise statement; the embedding is a
total function) and instead yields degenerate batches: an empty batch
followed by a singleton batch. -/
theorem c4_counterexample :
    create_batched_sequence_datasest [("a", "X")] 0 = [([], []), (["a"], ["X"])] := by
  decide

/-- C4 (amended): the packer performs no validation of the budget.  For any
budget ≤ 0 and any input whose sequences all have positive length, it yields
an initial empty batch followed by one singleton batch per input pair, rather
than failing fast. -/
theorem c4_amended_no_validation (pairs : List SeqPair) (B : Int) (hB : B ≤ 0)
    (hpos : ∀ p ∈ pairs, 0 < p.2.length) :
    create_batched_sequence_datasest pairs B
      = ([], []) :: pairs.map fun p => ([p.1], [p.2]) := by
  cases pairs with
  | nil =>
    simp only [List.map_nil]
    rfl
  | cons p rest =>
    obtain ⟨header, seq⟩ := p
    have hlen : 0 < seq.length := hpos (header, seq) (List.mem_cons_self _ _)
    have hc : ¬ ((seq.length : Int) + 0 ≤ B) := by omega
    simp only [create_batched_sequence_datasest, packGo, List.nil_append]
    rw [if_neg hc]
    rw [packGo_nonpos rest [header] [seq] _ B hB (by omega)
      (fun q hq => hpos q (List.mem_cons_of_mem _ hq))]
    simp

/-- C4 (amended), witness: at budget -2 on the single positive-length pair
("b", "YZ") the packer returns the degenerate batches without failing. -/
theorem c4_amended_no_validation_witness :
    (-2 : Int) ≤ 0
    ∧ (∀ p ∈ [(("b", "YZ") : SeqPair)], 0 < p.2.length)
    ∧ create_batched_sequence_datasest [("b", "YZ")] (-2)
        = ([], []) :: [(("b", "YZ") : SeqPair)].map fun p => ([p.1], [p.2]) :=
  ⟨by decide, by decide,
    c4_amended_no_validation [("b", "YZ")] (-2) (by decide) (by decide)⟩

/-- C5: for every input list and every budget, concatenating the emitted
batches in order reconstructs the input exactly: the concatenated header
lists are the input headers, the concatenated sequence lists are the input
sequences, and re-pairing each batch's headers with its sequences and
concatenating gives back the original list of pairs (an order-preserving
partition with no drops and no duplicates). -/
theorem c5_order_preserving_partition (pairs : List SeqPair) (B : Int) :
    ((create_batched_sequence_datasest pairs B).map fun b => b.1).flatten
        = pairs.map (fun p => p.1)
    ∧ ((create_batched_sequence_datasest pairs B).map fun b => b.2).flatten
        = pairs.map (fun p => p.2)
    ∧ ((create_batched_sequence_datasest pairs B).map fun b => b.1.zip b.2).flatten
        = pairs := by
  refine ⟨?_, ?_, ?_⟩
  · simpa using packGo_join_fst pairs [] [] 0 B
  · simpa using packGo_join_snd pairs [] [] 0 B
  · simpa using packGo_join_zip pairs [] [] 0 B rfl

/-- C6: with a non-negative budget B, every emitted batch either has total
sequence length ≤ B or consists of exactly one sequence whose own length
exceeds B; in particular no batch of two or more sequences ever exceeds the
budget, sorted input or not. -/
theorem c6_budget_invariant (pairs : List SeqPair) (B : Int) (hB : 0 ≤ B) :
    ∀ b ∈ create_batched_sequence_datasest pairs B,
      (b.2.map fun s => (s.length : Int)).sum ≤ B
        ∨ (b.2.length = 1 ∧ B < (b.2.map fun s => (s.length : Int)).sum) := by
  intro b hb
  have h := packGo_budget pairs [] [] 0 B hB (by simp) (Or.inl (by simp)) b hb
  rcases h with h | h
  · exact Or.inl h
  · by_cases hsb : (b.2.map fun s => (s.length : Int)).sum ≤ B
    · exact Or.inl hsb
    · exact Or.inr ⟨h, lt_of_not_le hsb⟩

/-- C6, witness: at budget 3, the over-budget sequence "AAAA" forms a
singleton batch whose total 4 exceeds the budget. -/
theorem c6_budget_invariant_witness :
    (0 : Int) ≤ 3
    ∧ ((["a"], ["AAAA"]) ∈ create_batched_sequence_datasest [("a", "AAAA")] 3)
    ∧ (((["AAAA"].map fun s => (s.length : Int)).sum ≤ 3)
        ∨ (["AAAA"].length = 1 ∧ (3 : Int) < (["AAAA"].map fun s => (s.length : Int)).sum)) :=
  ⟨by decide, by decide,
    c6_budget_invariant [("a", "AAAA")] 3 (by decide) (["a"], ["AAAA"]) (by decide)⟩

/-- C7: counterexample.  When inference fails with a RuntimeError that does
not carry the out-of-memory message because its argument tuple is empty, the
loop does not propagate that error unmodified: the handler's own `e.args[0]`
fails, and an IndexError (a different error) propagates instead. -/
theorem c7_counterexample :
    runLoop emptyArgsOracle initialState [(["h1"], ["AAAA"])]
        = Except.error PyExc.indexError
    ∧ PyExc.indexError ≠ PyExc.runtimeError [] := by
  constructor
  · decide
  · decide

/-- C7 (amended): a RuntimeError whose first argument is a string starting
with the out-of-memory phrase makes the loop skip the batch — no files, no
aggregate entries, state unchanged — and continue with the remaining batches;
a RuntimeError whose first argument is a string not starting with the phrase
propagates unmodified, as does any non-RuntimeError exception; but a
RuntimeError with an empty argument tuple or a non-string first argument
makes the handler itself fail, propagating an IndexError or AttributeError in
place of the original error. -/
theorem c7_amended_error_handling (oracle : List String → InferResult)
    (st : RunState) (headers sequences : List String)
    (rest : List (List String × List String)) :
    (∀ s args, oracle sequences = .exc (.runtimeError (.str s :: args)) →
        pyStartsWith s oomMsg = true →
        runLoop oracle st ((headers, sequences) :: rest) = runLoop oracle st rest)
    ∧ (∀ s args, oracle sequences = .exc (.runtimeError (.str s :: args)) →
        pyStartsWith s oomMsg = false →
        runLoop oracle st ((headers, sequences) :: rest)
          = .error (.runtimeError (.str s :: args)))
    ∧ (∀ name, oracle sequences = .exc (.otherExc name) →
        runLoop oracle st ((headers, sequences) :: rest)
          = .error (.otherExc name))
    ∧ (oracle sequences = .exc (.runtimeError []) →
        runLoop oracle st ((headers, sequences) :: rest) = .error .indexError)
    ∧ (∀ args, oracle sequences = .exc (.runtimeError (.nonStr :: args)) →
        runLoop oracle st ((headers, sequences) :: rest)
          = .error .attributeError) := by
  refine ⟨?_, ?_, ?_, ?_, ?_⟩
  · intro s args hor hsw
    simp [runLoop, hor, processBatch, handleRuntimeError, hsw]
  · intro s args hor hsw
    simp [runLoop, hor, processBatch, handleRuntimeError, hsw]
  · intro name hor
    simp [runLoop, hor, processBatch]
  · intro hor
    simp [runLoop, hor, processBatch, handleRuntimeError]
  · intro args hor
    simp [runLoop, hor, processBatch, handleRuntimeError]

/-- C7 (amended), witness: a single batch failing with a CUDA out-of-memory
RuntimeError is skipped and the loop terminates normally with the state
untouched (zero output files, no aggregate entries). -/
theorem c7_amended_error_handling_witness :
    runLoop oomOracle initialState [(["h1"], ["AAAA"])] = Except.ok initialState := by
  have h := (c7_amended_error_handling oomOracle initialState ["h1"] ["AAAA"] []).1
    "CUDA out of memory. Tried to allocate 20.00 GiB" [] rfl (by decide)
  exact h.trans rfl

/-- C2: the completion step is NOT guarded.  In a run where every batch is
skipped (here: the only batch fails with CUDA out of memory), zero sequences
complete, and the average computation `sum(pLDDT_dict.values()) /
num_completed` divides by zero — the embedded Python division raises
ZeroDivisionError instead of reporting a not-applicable result. -/
theorem c2_unguarded_average :
    runLoop oomOracle initialState [(["h1"], ["AAAA"])] = Except.ok initialState
    ∧ runAverages initialState
        = Except.error "ZeroDivisionError: division by zero" := by
  constructor
  · decide
  · rfl

/-- C10: the handler inspects only `e.args[0]` with a string prefix test.  A
RuntimeError with an empty argument tuple makes the handler raise IndexError,
and one with a non-string first argument makes it raise AttributeError — in
both cases neither recovering nor re-raising the original error — while every
RuntimeError whose first argument is a string either recovers (skip) or
re-raises exactly the original error. -/
theorem c10_handler_requires_string_arg :
    handleRuntimeError [] = .raised .indexError
    ∧ PyExc.indexError ≠ PyExc.runtimeError []
    ∧ (∀ args, handleRuntimeError (.nonStr :: args) = .raised .attributeError)
    ∧ (∀ args, PyExc.attributeError ≠ PyExc.runtimeError (.nonStr :: args))
    ∧ (∀ s args, handleRuntimeError (.str s :: args) = .skipBatch
        ∨ handleRuntimeError (.str s :: args)
            = .raised (.runtimeError (.str s :: args))) := by
  refine ⟨rfl, by decide, fun args => rfl, fun args => by simp, fun s args => ?_⟩
  by_cases h : pyStartsWith s oomMsg
  · left
    simp [handleRuntimeError, h]
  · right
    simp [handleRuntimeError, h]

theorem dictKeys_cons {α : Type} (kv : String × α) (rest : List (String × α)) :
    dictKeys (kv :: rest) = kv.1 :: dictKeys rest := rfl

theorem dictInsert_map_key {α β : Type} (f : String → β) :
    ∀ (d : List (String × α)) (k : String) (v : α),
      (dictInsert d k v).map (fun kv => f kv.1)
        = if k ∈ dictKeys d then d.map (fun kv => f kv.1)
          else d.map (fun kv => f kv.1) ++ [f k] := by
  intro d
  induction d with
  | nil => intro k v; simp [dictInsert, dictKeys]
  | cons kv rest ih =>
    intro k v
    by_cases hk : kv.1 = k
    · simp [dictInsert, hk, dictKeys_cons]
    · have hk2 : ¬ k = kv.1 := fun h => hk h.symm
      simp only [dictInsert, if_neg hk, List.map_cons, ih, dictKeys_cons,
        List.mem_cons]
      by_cases hm : k ∈ dictKeys rest
      · simp [hm, hk2]
      · simp [hm, hk2]

theorem dictKeys_dictInsert {α : Type} (d : List (String × α)) (k : String)
    (v : α) :
    dictKeys (dictInsert d k v)
      = if k ∈ dictKeys d then dictKeys d else dictKeys d ++ [k] := by
  simpa [dictKeys] using dictInsert_map_key (fun s => s) d k v

theorem mem_dictKeys_dictInsert_self {α : Type} (d : List (String × α))
    (k : String) (v : α) : k ∈ dictKeys (dictInsert d k v) := by
  rw [dictKeys_dictInsert]
  by_cases hm : k ∈ dictKeys d
  · simp [hm]
  · simp [hm]

theorem mem_dictKeys_dictInsert_of {α : Type} {d : List (String × α)}
    {k2 : String} (k : String) (v : α) (h : k2 ∈ dictKeys d) :
    k2 ∈ dictKeys (dictInsert d k v) := by
  rw [dictKeys_dictInsert]
  by_cases hm : k ∈ dictKeys d <;> simp [hm, h]

theorem dictLookup_dictInsert_self {α : Type} :
    ∀ (d : List (String × α)) (k : String) (v : α),
      dictLookup (dictInsert d k v) k = some v := by
  intro d
  induction d with
  | nil => intro k v; simp [dictInsert, dictLookup]
  | cons kv rest ih =>
    intro k v
    by_cases hk : kv.1 = k
    · simp [dictInsert, hk, dictLookup]
    · simp [dictInsert, hk, dictLookup, ih]

theorem dictLookup_dictInsert_ne {α : Type} {k2 k : String} (hne : k2 ≠ k) :
    ∀ (d : List (String × α)) (v : α),
      dictLookup (dictInsert d k v) k2 = dictLookup d k2 := by
  intro d
  induction d with
  | nil => intro v; simp [dictInsert, dictLookup, hne.symm]
  | cons kv rest ih =>
    intro v
    by_cases hk : kv.1 = k
    · simp [dictInsert, hk, dictLookup, hne.symm, ih]
    · by_cases hk2 : kv.1 = k2
      · simp [dictInsert, hk, dictLookup, hk2, hne]
      · simp [dictInsert, hk, dictLookup, hk2, ih]

theorem dictInsert_of_not_mem {α : Type} :
    ∀ (d : List (String × α)) (k : String) (v : α), k ∉ dictKeys d →
      dictInsert d k v = d ++ [(k, v)] := by
  intro d
  induction d with
  | nil => intro k v _; rfl
  | cons kv rest ih =>
    intro k v hk
    have h1 : kv.1 ≠ k := by
      intro h
      exact hk (by rw [dictKeys_cons, h]; exact List.mem_cons_self _ _)
    have h2 : k ∉ dictKeys rest := by
      intro hm
      exact hk (by rw [dictKeys_cons]; exact List.mem_cons_of_mem _ hm)
    simp [dictInsert, h1, ih _ _ h2]

theorem dictFold_append_of_nodup {α : Type} :
    ∀ (evs d : List (String × α)), (dictKeys (d ++ evs)).Nodup →
      dictFold d evs = d ++ evs := by
  intro evs
  induction evs with
  | nil => intro d _; simp [dictFold]
  | cons kv rest ih =>
    intro d h
    have hkeys : dictKeys (d ++ kv :: rest) = dictKeys d ++ kv.1 :: dictKeys rest := by
      simp [dictKeys]
    rw [hkeys] at h
    have hk : kv.1 ∉ dictKeys d := by
      intro hm
      rcases List.nodup_append.mp h with ⟨_, _, hdisj⟩
      exact hdisj hm (List.mem_cons_self _ _)
    simp only [dictFold, List.foldl_cons]
    rw [dictInsert_of_not_mem d kv.1 kv.2 hk]
    have h2 : (dictKeys ((d ++ [(kv.1, kv.2)]) ++ rest)).Nodup := by
      have he : dictKeys ((d ++ [(kv.1, kv.2)]) ++ rest)
          = dictKeys d ++ kv.1 :: dictKeys rest := by
        simp [dictKeys]
      rw [he]
      exact h
    have h3 := ih (d ++ [(kv.1, kv.2)]) h2
    simp only [dictFold] at h3
    rw [h3]
    simp

theorem string_append_cancel {a b : String} (c : String) (h : a ++ c = b ++ c) :
    a = b := by
  have hd : a.data ++ c.data = b.data ++ c.data := by
    rw [← String.data_append, ← String.data_append, h]
  have hab : a.data = b.data := List.append_cancel_right hd
  cases a
  cases b
  simp only at hab
  rw [hab]

theorem mem_map_pdb {d : List (String × ℚ)} {i : String} :
    (i ++ ".pdb") ∈ d.map (fun kv => kv.1 ++ ".pdb") ↔ i ∈ dictKeys d := by
  constructor
  · intro h
    rcases List.mem_map.mp h with ⟨kv, hkv, heq⟩
    have hki : kv.1 = i := string_append_cancel ".pdb" heq
    rw [← hki]
    exact List.mem_map_of_mem _ hkv
  · intro h
    rcases List.mem_map.mp h with ⟨kv, hkv, heq⟩
    exact List.mem_map.mpr ⟨kv, hkv, by rw [heq]⟩

theorem dictInsert_map_pdb (d : List (String × ℚ)) (k : String) (v : ℚ) :
    (dictInsert d k v).map (fun kv => kv.1 ++ ".pdb")
      = if k ∈ dictKeys d then d.map (fun kv => kv.1 ++ ".pdb")
        else d.map (fun kv => kv.1 ++ ".pdb") ++ [k ++ ".pdb"] := by
  simpa using dictInsert_map_key (fun s => s ++ ".pdb") d k v

theorem commitOne_aligned (st : RunState)
    (item : String × String × String × ℚ × ℚ) (h : Aligned st) :
    Aligned (commitOne st item) := by
  obtain ⟨h1, h2⟩ := h
  constructor
  · show dictKeys (dictInsert st.files (seqIdOf item.1 ++ ".pdb") item.2.2.1)
      = (dictInsert st.pLDDT_dict (seqIdOf item.1) item.2.2.2.1).map
          (fun kv => kv.1 ++ ".pdb")
    rw [dictKeys_dictInsert, dictInsert_map_pdb, h1]
    by_cases hm : seqIdOf item.1 ∈ dictKeys st.pLDDT_dict
    · rw [if_pos (mem_map_pdb.mpr hm), if_pos hm]
    · rw [if_neg (fun hc => hm (mem_map_pdb.mp hc)), if_neg hm]
  · show dictKeys (dictInsert st.pLDDT_dict (seqIdOf item.1) item.2.2.2.1)
      = dictKeys (dictInsert st.pTM_dict (seqIdOf item.1) item.2.2.2.2)
    rw [dictKeys_dictInsert, dictKeys_dictInsert, h2]

theorem commitOutputs_aligned :
    ∀ (items : List (String × String × String × ℚ × ℚ)) (st : RunState),
      Aligned st → Aligned (commitOutputs st items) := by
  intro items
  induction items with
  | nil => intro st h; exact h
  | cons it rest ih =>
    intro st h
    exact ih (commitOne st it) (commitOne_aligned st it h)

theorem runLoop_ok_commit (oracle : List String → InferResult) :
    ∀ (batches : List (List String × List String)) (st st2 : RunState),
      runLoop oracle st batches = .ok st2 →
      st2 = commitOutputs st (completedItems oracle batches) := by
  intro batches
  induction batches with
  | nil =>
    intro st st2 h
    simp only [runLoop] at h
    cases h
    rfl
  | cons b rest ih =>
    intro st st2 h
    obtain ⟨headers, sequences⟩ := b
    simp only [runLoop] at h
    cases ho : oracle sequences with
    | ok outputs =>
      rw [ho] at h
      simp only [processBatch] at h
      have hcomm := ih _ _ h
      rw [hcomm]
      simp [completedItems, batchItems, ho, commitOutputs, List.foldl_append]
    | exc e =>
      rw [ho] at h
      cases e with
      | runtimeError args =>
        simp only [processBatch] at h
        cases hh : handleRuntimeError args with
        | skipBatch =>
          rw [hh] at h
          have hcomm := ih _ _ h
          rw [hcomm]
          simp [completedItems, batchItems, ho]
        | raised e2 =>
          rw [hh] at h
          simp at h
      | indexError => simp [processBatch] at h
      | attributeError => simp [processBatch] at h
      | otherExc name => simp [processBatch] at h

theorem commitOutputs_num_completed :
    ∀ (items : List (String × String × String × ℚ × ℚ)) (st : RunState),
      (commitOutputs st items).num_completed = st.num_completed + items.length := by
  intro items
  induction items with
  | nil => intro st; rfl
  | cons it rest ih =>
    intro st
    have h := ih (commitOne st it)
    simp only [commitOutputs, List.foldl_cons] at h ⊢
    rw [h]
    simp only [commitOne, List.length_cons]
    omega

theorem commitOutputs_pLDDT :
    ∀ (items : List (String × String × String × ℚ × ℚ)) (st : RunState),
      (commitOutputs st items).pLDDT_dict
        = dictFold st.pLDDT_dict (items.map fun it => (seqIdOf it.1, it.2.2.2.1)) := by
  intro items
  induction items with
  | nil => intro st; rfl
  | cons it rest ih =>
    intro st
    have h := ih (commitOne st it)
    simp only [commitOutputs, List.foldl_cons] at h ⊢
    rw [h]
    simp [commitOne, dictFold]

theorem commitOutputs_pTM :
    ∀ (items : List (String × String × String × ℚ × ℚ)) (st : RunState),
      (commitOutputs st items).pTM_dict
        = dictFold st.pTM_dict (items.map fun it => (seqIdOf it.1, it.2.2.2.2)) := by
  intro items
  induction items with
  | nil => intro st; rfl
  | cons it rest ih =>
    intro st
    have h := ih (commitOne st it)
    simp only [commitOutputs, List.foldl_cons] at h ⊢
    rw [h]
    simp [commitOne, dictFold]

/-- C8: after a run ends normally, the written structure filenames are
exactly the `pLDDT_dict` keys suffixed ".pdb", the two aggregate dicts carry
exactly the same ids, records whose id is not in the aggregates are rewritten
unchanged, records whose id is in the aggregates keep their id and gain
`pLDDT` (1 decimal place) and `pTM` (3 decimal places) annotations with the
aggregated scores, and every aggregated id has an annotated record in the
rewritten output (assuming, as in the script where both come from the same
file, that every aggregated id occurs among the parsed records). -/
theorem c8_run_annotations (oracle : List String → InferResult)
    (batches : List (List String × List String))
    (records : List FastaRecord) (st : RunState)
    (hrun : runLoop oracle initialState batches = Except.ok st)
    (hids : ∀ i ∈ dictKeys st.pLDDT_dict, i ∈ records.map FastaRecord.id) :
    dictKeys st.files = st.pLDDT_dict.map (fun kv => kv.1 ++ ".pdb")
    ∧ dictKeys st.pLDDT_dict = dictKeys st.pTM_dict
    ∧ (∀ r ∈ records, r.id ∉ dictKeys st.pLDDT_dict →
        annotateOne st.pLDDT_dict st.pTM_dict r = r)
    ∧ (∀ r ∈ records, r.id ∈ dictKeys st.pLDDT_dict →
        (annotateOne st.pLDDT_dict st.pTM_dict r).id = r.id
        ∧ dictLookup (annotateOne st.pLDDT_dict st.pTM_dict r).annots "pLDDT"
            = some (fmtFixed 1 ((dictLookup st.pLDDT_dict r.id).getD 0))
        ∧ dictLookup (annotateOne st.pLDDT_dict st.pTM_dict r).annots "pTM"
            = some (fmtFixed 3 ((dictLookup st.pTM_dict r.id).getD 0)))
    ∧ (∀ i ∈ dictKeys st.pLDDT_dict,
        ∃ r2 ∈ annotateRecords records st.pLDDT_dict st.pTM_dict,
          r2.id = i ∧ "pLDDT" ∈ dictKeys r2.annots ∧ "pTM" ∈ dictKeys r2.annots) := by
  have hst := runLoop_ok_commit oracle batches initialState st hrun
  have hal : Aligned st := by
    rw [hst]
    exact commitOutputs_aligned _ initialState ⟨rfl, rfl⟩
  obtain ⟨h1, h2⟩ := hal
  have hid_eq : ∀ r : FastaRecord,
      (annotateOne st.pLDDT_dict st.pTM_dict r).id = r.id := by
    intro r
    unfold annotateOne
    split <;> rfl
  refine ⟨h1, h2, ?_, ?_, ?_⟩
  · intro r _ hrid
    simp [annotateOne, hrid]
  · intro r _ hrid
    refine ⟨hid_eq r, ?_, ?_⟩
    · simp only [annotateOne, if_pos hrid]
      rw [dictLookup_dictInsert_ne (by decide), dictLookup_dictInsert_self]
    · simp only [annotateOne, if_pos hrid]
      rw [dictLookup_dictInsert_self]
  · intro i hi
    rcases List.mem_map.mp (hids i hi) with ⟨r, hr, hrid⟩
    have hmem : r.id ∈ dictKeys st.pLDDT_dict := by
      rw [hrid]
      exact hi
    refine ⟨annotateOne st.pLDDT_dict st.pTM_dict r,
      List.mem_map_of_mem _ hr, ?_, ?_, ?_⟩
    · rw [hid_eq r, hrid]
    · simp only [annotateOne, if_pos hmem]
      exact mem_dictKeys_dictInsert_of _ _ (mem_dictKeys_dictInsert_self _ _ _)
    · simp only [annotateOne, if_pos hmem]
      exact mem_dictKeys_dictInsert_self _ _ _

/-- C8, witness: in the concrete one-batch run, the written filenames match
the aggregate keys, the two aggregates agree, and the record "b" (which never
completed) is rewritten unchanged. -/
theorem c8_run_annotations_witness :
    dictKeys annState.files = annState.pLDDT_dict.map (fun kv => kv.1 ++ ".pdb")
    ∧ dictKeys annState.pLDDT_dict = dictKeys annState.pTM_dict
    ∧ annotateOne annState.pLDDT_dict annState.pTM_dict ⟨"b", "CC", [("x", "y")]⟩
        = ⟨"b", "CC", [("x", "y")]⟩ := by
  have h := c8_run_annotations annOracle annBatches annRecords annState
    (by decide) (by decide)
  exact ⟨h.1, h.2.1, h.2.2.1 ⟨"b", "CC", [("x", "y")]⟩ (by decide) (by decide)⟩

/-- C9: counterexample to "the reported averages equal the arithmetic mean
over all completed sequences ONLY WHEN all completed ids are distinct": in a
run where the id "a" completes twice with score 0, the ids are not distinct,
yet the reported averages (0) still equal the arithmetic mean over all
completed sequences (0). -/
theorem c9_counterexample :
    runLoop dupIdOracle initialState dupIdBatches = Except.ok dupIdState
    ∧ (completedItems dupIdOracle dupIdBatches).map (fun it => seqIdOf it.1)
        = ["a", "a"]
    ∧ ¬ ((completedItems dupIdOracle dupIdBatches).map
          (fun it => seqIdOf it.1)).Nodup
    ∧ runAverages dupIdState = Except.ok (0, 0)
    ∧ ((completedItems dupIdOracle dupIdBatches).map fun it => it.2.2.2.1).sum
        / ((completedItems dupIdOracle dupIdBatches).length : ℚ) = 0
    ∧ ((completedItems dupIdOracle dupIdBatches).map fun it => it.2.2.2.2).sum
        / ((completedItems dupIdOracle dupIdBatches).length : ℚ) = 0 := by
  refine ⟨by decide, by decide, by decide, ?_, ?_, ?_⟩
  · simp [runAverages, dupIdState, pyDiv]
  · simp [completedItems, batchItems, dupIdOracle, dupIdBatches]
  · simp [completedItems, batchItems, dupIdOracle, dupIdBatches]

/-- C9 (amended): the loop's completion counter counts every completed
sequence while the aggregate dicts keep one entry per distinct id (a later
completion overwrites an earlier one with the same id), so the reported
averages divide the per-distinct-id sums by the count of all completions;
whenever the completed ids are distinct, the reported averages equal the
arithmetic means over all completed sequences. -/
theorem c9_amended_averages (oracle : List String → InferResult)
    (batches : List (List String × List String)) (st : RunState)
    (hrun : runLoop oracle initialState batches = Except.ok st) :
    st.num_completed = (completedItems oracle batches).length
    ∧ st.pLDDT_dict
        = dictFold [] ((completedItems oracle batches).map
            fun it => (seqIdOf it.1, it.2.2.2.1))
    ∧ st.pTM_dict
        = dictFold [] ((completedItems oracle batches).map
            fun it => (seqIdOf it.1, it.2.2.2.2))
    ∧ (((completedItems oracle batches).map fun it => seqIdOf it.1).Nodup →
        completedItems oracle batches ≠ [] →
        runAverages st
          = Except.ok
            ((((completedItems oracle batches).map fun it => it.2.2.2.1).sum
                / ((completedItems oracle batches).length : ℚ)),
              (((completedItems oracle batches).map fun it => it.2.2.2.2).sum
                / ((completedItems oracle batches).length : ℚ)))) := by
  have hst := runLoop_ok_commit oracle batches initialState st hrun
  have h1 : st.num_completed = (completedItems oracle batches).length := by
    rw [hst, commitOutputs_num_completed]
    simp [initialState]
  have h2 : st.pLDDT_dict
      = dictFold [] ((completedItems oracle batches).map
          fun it => (seqIdOf it.1, it.2.2.2.1)) := by
    rw [hst, commitOutputs_pLDDT]
    rfl
  have h3 : st.pTM_dict
      = dictFold [] ((completedItems oracle batches).map
          fun it => (seqIdOf it.1, it.2.2.2.2)) := by
    rw [hst, commitOutputs_pTM]
    rfl
  refine ⟨h1, h2, h3, ?_⟩
  intro hnodup hne
  have hkeys1 : dictKeys (([] : List (String × ℚ))
        ++ ((completedItems oracle batches).map fun it => (seqIdOf it.1, it.2.2.2.1)))
      = (completedItems oracle batches).map fun it => seqIdOf it.1 := by
    simp [dictKeys, List.map_map, Function.comp]
  have hkeys2 : dictKeys (([] : List (String × ℚ))
        ++ ((completedItems oracle batches).map fun it => (seqIdOf it.1, it.2.2.2.2)))
      = (completedItems oracle batches).map fun it => seqIdOf it.1 := by
    simp [dictKeys, List.map_map, Function.comp]
  have hpl : st.pLDDT_dict
      = (completedItems oracle batches).map fun it => (seqIdOf it.1, it.2.2.2.1) := by
    rw [h2, dictFold_append_of_nodup _ _ (by rw [hkeys1]; exact hnodup)]
    simp
  have hpt : st.pTM_dict
      = (completedItems oracle batches).map fun it => (seqIdOf it.1, it.2.2.2.2) := by
    rw [h3, dictFold_append_of_nodup _ _ (by rw [hkeys2]; exact hnodup)]
    simp
  have hn0 : st.num_completed ≠ 0 := by
    rw [h1]
    simpa [List.length_eq_zero] using hne
  simp only [runAverages, pyDiv, if_neg hn0]
  rw [hpl, hpt, h1]
  simp only [List.map_map]
  rfl

/-- C9 (amended), witness: two completions with distinct ids and confidences
80 and 90 report the arithmetic-mean averages (85, 3/2). -/
theorem c9_amended_averages_witness :
    runAverages meanState = Except.ok (85, 3/2) := by
  have h := (c9_amended_averages meanOracle meanBatches meanState (by decide)).2.2.2
    (by decide) (by decide)
  rw [h]
  simp [completedItems, batchItems, meanOracle, meanBatches]
  norm_num

end FoldEvalTTS
